import Mathlib

/-!
Verification of the twilight_bbs session engine against its specification.

Each Go component relevant to the checked properties is shallowly embedded:
pure Lean functions mirror the Go functions, Go maps become functions into
`Option` (or association lists where entry presence matters), Go channels
become an explicit buffer/capacity/closed record, and fallible operations
return their error value together with the post-state.
-/

set_option autoImplicit false

namespace Chat

/-- Chat message, from `internal/chat/broker.go` (`Message`). -/
structure Message where
  fromNodeID : Int
  fromUser   : String
  toNodeID   : Int
  room       : String
  text       : String
  deriving DecidableEq, Repr

/-- A Go buffered channel of `Message`s: pending buffer, capacity, and
whether `close` has been called on it. `Subscribe` creates these with
capacity 32 (`make(chan Message, 32)`). -/
structure Chan where
  buf      : List Message
  capacity : Nat
  closed   : Bool
  deriving DecidableEq, Repr

/-- A non-blocking send (`select { case ch <- msg: ... default: ... }`):
succeeds exactly when the buffer has free space. -/
def Chan.trySend (c : Chan) (m : Message) : Option Chan :=
  if c.buf.length < c.capacity then some { c with buf := c.buf ++ [m] } else none

/-- Chat subscriber, from `internal/chat/broker.go` (`Subscriber`). -/
structure Subscriber where
  nodeID   : Int
  userName : String
  ch       : Chan
  room     : String
  deriving DecidableEq, Repr

/-- Broker state: the `subscribers` map keyed by node id. -/
structure Broker where
  subscribers : Int → Option Subscriber

/-- `NewBroker`: empty subscribers map. -/
def newBroker : Broker := ⟨fun _ => none⟩

/-- `Broker.Subscribe`: registers a fresh subscriber with a 32-slot open
channel and returns it (the session keeps the returned handle). -/
def subscribe (b : Broker) (nodeID : Int) (userName : String) :
    Broker × Subscriber :=
  let sub : Subscriber := ⟨nodeID, userName, ⟨[], 32, false⟩, ""⟩
  (⟨fun k => if k = nodeID then some sub else b.subscribers k⟩, sub)

/-- `Broker.Unsubscribe` (current revision, with the comment "Don't close
the channel here: broadcasters may have already snapshotted subscribers and
will send concurrently"): it only deletes the map entry.

The second component is the removed node's outbound channel as its session
still sees it after the call: the Go code performs no write through the
`*Subscriber` pointer, so it is exactly the channel that was in the map. -/
def unsubscribe (b : Broker) (nodeID : Int) : Broker × Option Chan :=
  (⟨fun k => if k = nodeID then none else b.subscribers k⟩,
   (b.subscribers nodeID).map Subscriber.ch)

/-- `Broker.SendTo`: looks up the target; unknown node is an error, a full
buffer is an error, otherwise the message is enqueued. The first component
is the returned `error` (`none` = `nil`), the second the post-state. -/
def sendTo (b : Broker) (fromNodeID : Int) (fromUser : String)
    (toNodeID : Int) (text : String) : Option String × Broker :=
  match b.subscribers toNodeID with
  | none => (some ("node " ++ toString toNodeID ++ " not found"), b)
  | some sub =>
    let msg : Message := ⟨fromNodeID, fromUser, toNodeID, "", text⟩
    match sub.ch.trySend msg with
    | some ch =>
      (none,
       ⟨fun k => if k = toNodeID then some { sub with ch := ch }
                 else b.subscribers k⟩)
    | none => (some ("node " ++ toString toNodeID ++ " message buffer full"), b)

/-- C1: `SendTo(from, fromUser, to, text)`: unknown target node yields the
"node not found" error with the state unchanged; a full 32-slot buffer
yields the "buffer full" error; otherwise the message is enqueued into the
target's buffer and the call succeeds. -/
theorem sendTo_spec (b : Broker) (f : Int) (fu : String) (t : Int) (tx : String) :
    (b.subscribers t = none →
      sendTo b f fu t tx = (some ("node " ++ toString t ++ " not found"), b)) ∧
    (∀ sub : Subscriber, b.subscribers t = some sub → sub.ch.capacity = 32 →
      (sub.ch.buf.length ≥ 32 →
        sendTo b f fu t tx =
          (some ("node " ++ toString t ++ " message buffer full"), b)) ∧
      (sub.ch.buf.length < 32 →
        sendTo b f fu t tx =
          (none,
           ⟨fun k => if k = t then
               some { sub with ch := { sub.ch with
                 buf := sub.ch.buf ++ [⟨f, fu, t, "", tx⟩] } }
             else b.subscribers k⟩))) := by
  refine ⟨fun hnone => ?_, fun sub hsub hcap => ⟨fun hfull => ?_, fun hfree => ?_⟩⟩
  · simp [sendTo, hnone]
  · simp [sendTo, hsub, Chan.trySend, hcap, Nat.not_lt.mpr hfull]
  · simp [sendTo, hsub, Chan.trySend, hcap, hfree]

/-- Concrete instantiation of `sendTo_spec`: a broker with node 7 subscribed
(empty buffer) rejects a send to the unknown node 9 and accepts one to 7. -/
theorem sendTo_spec_witness :
    ((subscribe newBroker 7 "alice").1.subscribers 9 = none ∧
      sendTo (subscribe newBroker 7 "alice").1 1 "bob" 9 "hi" =
        (some "node 9 not found", (subscribe newBroker 7 "alice").1)) ∧
    (sendTo (subscribe newBroker 7 "alice").1 1 "bob" 7 "hi").1 = none := by
  constructor
  · exact ⟨by decide,
      (sendTo_spec (subscribe newBroker 7 "alice").1 1 "bob" 9 "hi").1 (by decide)⟩
  · have h := ((sendTo_spec (subscribe newBroker 7 "alice").1 1 "bob" 7 "hi").2
      ⟨7, "alice", ⟨[], 32, false⟩, ""⟩ (by decide) rfl).2 (by decide)
    rw [h]

/-- C2: `Unsubscribe(N)` on a broker that has a subscriber for `N` removes
`N`'s map entry, leaves every other node's entry (and hence its buffer)
unchanged, and does not close `N`'s outbound channel: the channel the
session still holds is returned exactly as it was, in particular still open
when it was open. -/
theorem unsubscribe_spec (b : Broker) (n : Int) (sub : Subscriber)
    (hsub : b.subscribers n = some sub) :
    (unsubscribe b n).1.subscribers n = none ∧
    (∀ k : Int, k ≠ n → (unsubscribe b n).1.subscribers k = b.subscribers k) ∧
    (unsubscribe b n).2 = some sub.ch ∧
    (sub.ch.closed = false → ∃ c : Chan, (unsubscribe b n).2 = some c ∧
      c.closed = false ∧ c.buf = sub.ch.buf) := by
  refine ⟨by simp [unsubscribe], fun k hk => by simp [unsubscribe, hk], ?_, ?_⟩
  · simp [unsubscribe, hsub]
  · intro hcl
    exact ⟨sub.ch, by simp [unsubscribe, hsub], hcl, rfl⟩

/-- Concrete instantiation of `unsubscribe_spec` on a broker with nodes 1
and 2 subscribed: node 1's entry disappears, node 2's entry survives, and
node 1's channel comes back open. -/
theorem unsubscribe_spec_witness :
    (unsubscribe (subscribe (subscribe newBroker 1 "a").1 2 "b").1 1).1.subscribers 1
        = none ∧
    (unsubscribe (subscribe (subscribe newBroker 1 "a").1 2 "b").1 1).1.subscribers 2
        = (subscribe (subscribe newBroker 1 "a").1 2 "b").1.subscribers 2 ∧
    (unsubscribe (subscribe (subscribe newBroker 1 "a").1 2 "b").1 1).2
        = some ⟨[], 32, false⟩ := by
  have h := unsubscribe_spec (subscribe (subscribe newBroker 1 "a").1 2 "b").1 1
    ⟨1, "a", ⟨[], 32, false⟩, ""⟩ (by decide)
  exact ⟨h.1, h.2.1 2 (by decide), h.2.2.1⟩

end Chat

namespace NodeMgr

/-- Node manager state, from `internal/node` (`Manager`): the key set of the
`nodes` map, the configured `maxNodes`, and the monotonic `nextID` counter
(initialised to 1 by `NewManager`). -/
structure Manager where
  nodes    : Finset Int
  maxNodes : Int
  nextID   : Int
  deriving DecidableEq

/-- `NewManager`: empty live set, counter starts at 1. -/
def newManager (maxNodes : Int) : Manager := ⟨∅, maxNodes, 1⟩

/-- `Manager.Acquire`: fails with `(0, false)` when the live set is at
capacity, otherwise hands out `nextID` and increments it. -/
def acquire (m : Manager) : (Int × Bool) × Manager :=
  if (m.nodes.card : Int) ≥ m.maxNodes then ((0, false), m)
  else ((m.nextID, true), { m with nextID := m.nextID + 1 })

/-- `Manager.Add` (keyed by the node's id). -/
def add (m : Manager) (id : Int) : Manager := { m with nodes := insert id m.nodes }

/-- `Manager.Remove`. -/
def remove (m : Manager) (id : Int) : Manager := { m with nodes := m.nodes.erase id }

/-- A session-level operation: `connect` is `Acquire` immediately followed
by `Add` of the returned id on success (as in `cmd/bbs/main.go`,
`handleConnection`); `disconnect` is `Remove`. -/
inductive Op where
  | connect : Op
  | disconnect : Int → Op

/-- One session-level operation applied to the manager. -/
def step (m : Manager) : Op → Manager
  | .connect =>
    match acquire m with
    | ((id, true), m1) => add m1 id
    | ((_, false), m1) => m1
  | .disconnect id => remove m id

/-- A whole sequence of connects/disconnects. -/
def run (m : Manager) (ops : List Op) : Manager := ops.foldl step m

/-- C3: evaluation of the embedded manager on the scenario of the
repository's own test `TestManagerAcquireLowestAvailable`
(`internal/node/manager_test.go`): with capacity 3, after acquiring ids 1
and 2 and releasing id 1, `Acquire` hands out 3 — the released id 1 is
never reused, because `nextID` only ever increases. The test (and the
spec's "reused after release") requires this `Acquire` to return id 1. -/
theorem acquire_released_id_not_reused :
    (acquire (step (step (step (newManager 3) .connect) .connect)
        (.disconnect 1))).1 = (3, true) ∧
    (acquire (step (step (step (newManager 3) .connect) .connect)
        (.disconnect 1))).1 ≠ (1, true) := by
  decide

/-- C9: when the live set already holds `maxNodes` sessions, `Acquire`
returns `(0, false)` and the manager is completely unchanged (in
particular `nextID` is not advanced), and after any held id is removed a
new `Acquire` succeeds again, handing out the untouched `nextID`. -/
theorem acquire_at_capacity (m : Manager)
    (hfull : (m.nodes.card : Int) = m.maxNodes) :
    acquire m = ((0, false), m) ∧
    ∀ id ∈ m.nodes,
      acquire (remove m id) =
        ((m.nextID, true), { remove m id with nextID := m.nextID + 1 }) := by
  constructor
  · simp [acquire, hfull]
  · intro id hid
    have hpos : 0 < m.nodes.card := Finset.card_pos.mpr ⟨id, hid⟩
    have hcard : ((m.nodes.erase id).card : Int) = (m.nodes.card : Int) - 1 := by
      rw [Finset.card_erase_of_mem hid]
      exact_mod_cast Nat.cast_sub hpos
    have hlt : ¬ (((remove m id).nodes.card : Int) ≥ (remove m id).maxNodes) := by
      simp only [remove, not_le]
      rw [hcard, hfull]
      omega
    unfold acquire
    rw [if_neg hlt]
    simp [remove]

/-- Concrete instantiation of `acquire_at_capacity`: a manager at capacity
2 holding ids 1 and 2 rejects an `Acquire` unchanged, and succeeds again
after id 1 is removed. -/
theorem acquire_at_capacity_witness :
    acquire ⟨{1, 2}, 2, 3⟩ = ((0, false), ⟨{1, 2}, 2, 3⟩) ∧
    acquire (remove ⟨{1, 2}, 2, 3⟩ 1) = ((3, true), ⟨({1, 2} : Finset Int).erase 1, 2, 4⟩) := by
  have h := acquire_at_capacity ⟨{1, 2}, 2, 3⟩ (by decide)
  exact ⟨h.1, h.2 1 (by decide)⟩

end NodeMgr


namespace Door

/-- The per-door in-use counter map (`Launcher.inUse : map[string]int`), as
an association list; `mapFind`/`mapSet`/`mapDel` below give it exact Go map
semantics (at most one binding per key is ever observable). -/
abbrev UsageMap := List (String × Int)

/-- First binding for `k`, if any. -/
def mapFind : UsageMap → String → Option Int
  | [], _ => none
  | (a, v) :: t, k => if a = k then some v else mapFind t k

/-- Go map read with zero default (`l.inUse[key]`). -/
def mapGet (m : UsageMap) (k : String) : Int := (mapFind m k).getD 0

/-- Drop every binding for `k` (helper for write and delete). -/
def mapDel : UsageMap → String → UsageMap
  | [], _ => []
  | (a, v) :: t, k => if a = k then mapDel t k else (a, v) :: mapDel t k

/-- Go map write (`l.inUse[key] = v`). -/
def mapSet (m : UsageMap) (k : String) (v : Int) : UsageMap :=
  (k, v) :: mapDel m k

/-- Whether the map has an entry for `k` at all. -/
def hasKey (m : UsageMap) (k : String) : Bool := (mapFind m k).isSome

theorem mapFind_del_self (m : UsageMap) (k : String) :
    mapFind (mapDel m k) k = none := by
  induction m with
  | nil => rfl
  | cons p t ih =>
    obtain ⟨a, v⟩ := p
    by_cases ha : a = k
    · simpa [mapDel, ha] using ih
    · simp [mapDel, mapFind, ha, ih]

theorem mapFind_del_other (m : UsageMap) (k k2 : String) (h : k2 ≠ k) :
    mapFind (mapDel m k) k2 = mapFind m k2 := by
  induction m with
  | nil => rfl
  | cons p t ih =>
    obtain ⟨a, v⟩ := p
    by_cases ha : a = k
    · have hk : k ≠ k2 := fun e => h e.symm
      simp [mapDel, mapFind, ha, hk, ih]
    · by_cases ha2 : a = k2
      · simp [mapDel, mapFind, ha, ha2, h]
      · simp [mapDel, mapFind, ha, ha2, ih]

theorem mapGet_set_self (m : UsageMap) (k : String) (v : Int) :
    mapGet (mapSet m k v) k = v := by
  simp [mapGet, mapSet, mapFind]

theorem mapGet_set_other (m : UsageMap) (k k2 : String) (v : Int) (h : k2 ≠ k) :
    mapGet (mapSet m k v) k2 = mapGet m k2 := by
  have : k ≠ k2 := fun hk => h hk.symm
  simp [mapGet, mapSet, mapFind, this, mapFind_del_other m k k2 h]

theorem mapGet_del_self (m : UsageMap) (k : String) :
    mapGet (mapDel m k) k = 0 := by
  simp [mapGet, mapFind_del_self]

theorem mapGet_del_other (m : UsageMap) (k k2 : String) (h : k2 ≠ k) :
    mapGet (mapDel m k) k2 = mapGet m k2 := by
  simp [mapGet, mapFind_del_other m k k2 h]

/-- Door configuration fields read by `reserveDoor` (`door.Config`): the
declared name and the multi-user flag. -/
structure Config where
  name      : String
  multiUser : Bool

/-- ASCII whitespace, as trimmed by `strings.TrimSpace` on ASCII input. -/
def isSpaceChar (c : Char) : Bool :=
  c = ' ' ∨ c = '\t' ∨ c = '\n' ∨ c = '\r' ∨ c = '\x0b' ∨ c = '\x0c'

/-- ASCII lower-casing of one character (`strings.ToLower` on ASCII). -/
def lowerChar (c : Char) : Char :=
  if 'A' ≤ c ∧ c ≤ 'Z' then Char.ofNat (c.toNat + 32) else c

/-- `normalizeDoorKey`: `strings.TrimSpace` then `strings.ToLower`,
modelled character-wise (door names are ASCII). -/
def normalizeDoorKey (name : String) : String :=
  String.mk ((((name.data.dropWhile isSpaceChar).reverse.dropWhile
    isSpaceChar).reverse).map lowerChar)

/-- `Launcher.reserveDoor`: refuses an empty normalized name; refuses a
single-user door whose counter is positive with the literal
"currently in use" error; otherwise increments the counter. On success the
new map is returned together with the key captured by the release closure.
All error paths leave the map untouched (the Go code returns before any
mutation). -/
def reserveDoor (inUse : UsageMap) (cfg : Config) :
    Except String (UsageMap × String) :=
  let key := normalizeDoorKey cfg.name
  if key = "" then .error "door config missing 'name'"
  else
    let current := mapGet inUse key
    if ¬cfg.multiUser ∧ current > 0 then
      .error ("door '" ++ cfg.name ++ "' is currently in use (" ++
        toString current ++ " user(s))")
    else .ok (mapSet inUse key (current + 1), key)

/-- The release closure returned by `reserveDoor`: `released` is the
captured once-flag; a first call deletes the entry when the counter is ≤ 1
and decrements it otherwise, and flips the flag; later calls do nothing. -/
def releaseDoor (key : String) (released : Bool) (inUse : UsageMap) :
    Bool × UsageMap :=
  if released then (true, inUse)
  else
    (true,
     if mapGet inUse key ≤ 1 then mapDel inUse key
     else mapSet inUse key (mapGet inUse key - 1))

/-- C8: for a door declared single-user, a second reservation attempt
while the counter is 1 fails with exactly
`door '<NAME>' is currently in use (1 user(s))` and (the error path not
touching the map) the counter stays 1; any successful reservation of this
door leaves the counter at most 1; and after the holder's release a new
reservation succeeds. -/
theorem reserveDoor_single_user (inUse : UsageMap) (cfg : Config) (key : String)
    (hmu : cfg.multiUser = false) (hkey : normalizeDoorKey cfg.name = key)
    (hne : key ≠ "") (hone : mapGet inUse key = 1) :
    reserveDoor inUse cfg =
      .error ("door '" ++ cfg.name ++ "' is currently in use (1 user(s))") ∧
    (∀ m m2 k2, reserveDoor m cfg = .ok (m2, k2) → mapGet m2 k2 ≤ 1) ∧
    reserveDoor (releaseDoor key false inUse).2 cfg =
      .ok (mapSet (mapDel inUse key) key 1, key) := by
  have hts : toString (1 : Int) = "1" := rfl
  refine ⟨?_, ?_, ?_⟩
  · simp only [reserveDoor, hkey, hmu, hone]
    rw [if_neg hne, if_pos (by norm_num), hts,
      String.append_assoc _ "1" " user(s))",
      String.append_assoc _ "' is currently in use (" _]
    rfl
  · intro m m2 k2 hok
    simp only [reserveDoor, hkey, hmu] at hok
    rw [if_neg hne] at hok
    by_cases hpos : mapGet m key > 0
    · rw [if_pos (by simpa using hpos)] at hok
      exact absurd hok (by simp)
    · rw [if_neg (by simpa using hpos)] at hok
      have h2 := Except.ok.inj hok
      rw [Prod.mk.injEq] at h2
      obtain ⟨h3, h4⟩ := h2
      rw [← h3, ← h4, mapGet_set_self]
      omega
  · have hrel : (releaseDoor key false inUse).2 = mapDel inUse key := by
      simp [releaseDoor, hone]
    rw [hrel]
    simp only [reserveDoor, hkey, hmu, mapGet_del_self]
    rw [if_neg hne, if_neg (by norm_num)]
    norm_num

/-- Concrete instantiation of `reserveDoor_single_user` for the door
`DARKNESS` with one current user. -/
theorem reserveDoor_single_user_witness :
    reserveDoor [("darkness", 1)] ⟨"DARKNESS", false⟩ =
      .error "door 'DARKNESS' is currently in use (1 user(s))" ∧
    reserveDoor (releaseDoor "darkness" false [("darkness", 1)]).2
        ⟨"DARKNESS", false⟩ =
      .ok (mapSet (mapDel [("darkness", 1)] "darkness") "darkness" 1, "darkness") := by
  have h := reserveDoor_single_user [("darkness", 1)] ⟨"DARKNESS", false⟩
    "darkness" rfl (by decide) (by decide) (by decide)
  exact ⟨h.1, h.2.2⟩

/-- C10: the release function is idempotent: its first invocation flips the
once-flag and decrements the counter by one, deleting the entry when the
counter was at most 1, while leaving every other door untouched; every
later invocation (flag set) changes nothing; and the stored counter never
becomes negative. -/
theorem releaseDoor_idempotent (inUse : UsageMap) (key : String) :
    (releaseDoor key false inUse).1 = true ∧
    (mapGet inUse key ≤ 1 →
      hasKey (releaseDoor key false inUse).2 key = false) ∧
    (1 < mapGet inUse key →
      mapGet (releaseDoor key false inUse).2 key = mapGet inUse key - 1) ∧
    (∀ k2, k2 ≠ key →
      mapGet (releaseDoor key false inUse).2 k2 = mapGet inUse k2) ∧
    (∀ m, releaseDoor key true m = (true, m)) ∧
    0 ≤ mapGet (releaseDoor key false inUse).2 key := by
  refine ⟨rfl, ?_, ?_, ?_, fun m => rfl, ?_⟩
  · intro hle
    simp [releaseDoor, hle, hasKey, mapFind_del_self]
  · intro hgt
    simp only [releaseDoor, Bool.false_eq_true, if_false]
    rw [if_neg (by omega), mapGet_set_self]
  · intro k2 hk2
    by_cases hle : mapGet inUse key ≤ 1
    · simp [releaseDoor, hle, mapGet_del_other _ _ _ hk2]
    · simp only [releaseDoor, Bool.false_eq_true, if_false]
      rw [if_neg hle, mapGet_set_other _ _ _ _ hk2]
  · by_cases hle : mapGet inUse key ≤ 1
    · simp [releaseDoor, hle, mapGet_del_self]
    · simp only [releaseDoor, Bool.false_eq_true, if_false]
      rw [if_neg hle, mapGet_set_self]
      omega

/-- Concrete instantiation of `releaseDoor_idempotent`: a door with two
users drops to one on the first release; a spent release function changes
nothing; a door with one user loses its entry. -/
theorem releaseDoor_idempotent_witness :
    (1 < mapGet [("tw", 2)] "tw" →
      mapGet (releaseDoor "tw" false [("tw", 2)]).2 "tw" = mapGet [("tw", 2)] "tw" - 1) ∧
    releaseDoor "tw" true [("tw", 1)] = (true, [("tw", 1)]) ∧
    (mapGet [("tw", 1)] "tw" ≤ 1 →
      hasKey (releaseDoor "tw" false [("tw", 1)]).2 "tw" = false) := by
  exact ⟨(releaseDoor_idempotent [("tw", 2)] "tw").2.2.1,
    (releaseDoor_idempotent [("tw", 1)] "tw").2.2.2.2.1 [("tw", 1)],
    (releaseDoor_idempotent [("tw", 1)] "tw").2.1⟩

end Door

namespace Term

/-- Modelled from the spec: the implementation of `Terminal.PauseWithTimeout`
is not under `src/` — only its tests
(`internal/terminal/terminal_pause_test.go`) and the plain `Terminal.Pause`
are. Spec §4.3: "a pause-with-timeout variant that returns after either one
byte arrives or N seconds elapse — on timeout any byte that arrives later
must be readable by the next primitive (i.e., the pause must not
pre-consume)". The terminal's pending input is modelled as a list of
(arrival time in seconds since the call, byte) pairs in arrival order;
the pause consumes the first byte exactly when it arrives within the
timeout window, and otherwise returns leaving the stream untouched. -/
def pauseWithTimeout (timeoutSec : Nat) (input : List (Nat × Nat)) :
    Option Nat × List (Nat × Nat) :=
  match input with
  | [] => (none, [])
  | (t, b) :: rest =>
    if t ≤ timeoutSec then (some b, rest) else (none, (t, b) :: rest)

/-- `Terminal.ReadByte`/`GetKey` on the same timed stream: blocks for and
consumes the first pending byte, whenever it arrives. -/
def readByte (input : List (Nat × Nat)) : Option (Nat × List (Nat × Nat)) :=
  match input with
  | [] => none
  | (_, b) :: rest => some (b, rest)

/-- C4: a pause-with-timeout whose window expires before the first byte
arrives returns on the timeout without consuming any input, and the next
read primitive on the same terminal receives exactly that first
after-the-timeout byte. -/
theorem pauseWithTimeout_no_preconsume (timeoutSec t b : Nat)
    (rest : List (Nat × Nat)) (h : timeoutSec < t) :
    pauseWithTimeout timeoutSec ((t, b) :: rest) = (none, (t, b) :: rest) ∧
    readByte ((t, b) :: rest) = some (b, rest) := by
  exact ⟨by simp [pauseWithTimeout, Nat.not_le.mpr h], rfl⟩

/-- Concrete instantiation of `pauseWithTimeout_no_preconsume`: the scenario
of `TestPauseWithTimeout_DoesNotConsumeKeyAfterTimeout` — a 1-second pause,
the byte `'A'` arriving afterwards. -/
theorem pauseWithTimeout_no_preconsume_witness :
    pauseWithTimeout 1 [(2, 65)] = (none, [(2, 65)]) ∧
    readByte [(2, 65)] = some (65, []) :=
  pauseWithTimeout_no_preconsume 1 2 65 [] (by decide)

end Term

namespace Menu

/-- A handler invocation recorded from the engine's point of view
(`Engine.vm.CallMenuHandler` targets). -/
inductive Ev where
  | onLoad | onEnter | onKey | onInput | onExit
  deriving DecidableEq, Repr

/-- The engine fields the navigation machinery reads and writes
(`Engine.nextMenu/gosubMenu/returnMenu/disconnect/running`). -/
structure EngSt where
  nextMenu   : String
  gosubMenu  : String
  returnMenu : Bool
  disconnect : Bool
  running    : Bool
  deriving DecidableEq, Repr

/-- `Engine.hasNavigationPending`. -/
def hasNavigationPending (s : EngSt) : Bool :=
  (s.nextMenu != "") || (s.gosubMenu != "") || s.returnMenu || s.disconnect

/-- A loaded menu script, abstracted to what the engine observes: which
handlers it defines, and each handler's effect on the engine state via the
navigation/state callbacks (`node.goto_menu` etc. only set the one-shot
signal fields, so a handler is a state transformer). -/
structure MenuScript where
  hasScript  : Bool
  hasOnKey   : Bool
  hasOnInput : Bool
  onLoad     : EngSt → EngSt
  onEnter    : EngSt → EngSt
  onKey      : EngSt → String → EngSt
  onInput    : EngSt → String → EngSt
  onExit     : EngSt → EngSt

/-- The body of `Engine.inputLoop`: while `running` and no navigation
signal is pending, read one key (or line) and dispatch it; an exhausted
input stream is a terminal read error, surfaced as `ErrDisconnect`
(the `Bool` in the result). An `on_input` line is trimmed and dispatched
only when non-empty. -/
def inputLoopGo (sc : MenuScript) : List String → EngSt → List Ev × EngSt × Bool
  | inputs, s =>
    if s.running && !hasNavigationPending s then
      match inputs with
      | [] => ([], s, true)
      | i :: rest =>
        if sc.hasOnKey then
          let r := inputLoopGo sc rest (sc.onKey s i)
          (Ev.onKey :: r.1, r.2)
        else
          let line := i.trim
          if line ≠ "" then
            let r := inputLoopGo sc rest (sc.onInput s line)
            (Ev.onInput :: r.1, r.2)
          else
            inputLoopGo sc rest s
    else ([], s, false)

/-- `Engine.inputLoop`: returns immediately when the script defines
neither `on_key` nor `on_input`. -/
def inputLoop (sc : MenuScript) (inputs : List String) (s : EngSt) :
    List Ev × EngSt × Bool :=
  if !sc.hasOnKey && !sc.hasOnInput then ([], s, false)
  else inputLoopGo sc inputs s

/-- `Engine.runMenu` for a resolved menu, from the `on_load` call onwards
(art display performs no handler calls): `on_load`, then `on_enter`; if
`on_enter` left a navigation signal pending, `on_exit` fires and the menu
returns at once; otherwise the input loop runs, and `on_exit` fires unless
the loop ended in a read error (`ErrDisconnect`, the `Bool`). The first
component is the ordered trace of handler invocations for this entry. -/
def runMenu (sc : MenuScript) (inputs : List String) (s0 : EngSt) :
    List Ev × EngSt × Bool :=
  if sc.hasScript then
    let s2 := sc.onEnter (sc.onLoad s0)
    if hasNavigationPending s2 then
      ([Ev.onLoad, Ev.onEnter, Ev.onExit], sc.onExit s2, false)
    else
      let r := inputLoop sc inputs s2
      if r.2.2 then
        (Ev.onLoad :: Ev.onEnter :: r.1, r.2.1, true)
      else
        (Ev.onLoad :: Ev.onEnter :: (r.1 ++ [Ev.onExit]), sc.onExit r.2.1, false)
  else ([], s0, false)

/-- C7: when a menu's `on_enter` queues a navigation signal, the engine
invokes neither `on_key` nor `on_input` for that menu, and invokes
`on_exit` exactly once for this entry to the menu. -/
theorem runMenu_onEnter_nav (sc : MenuScript) (inputs : List String)
    (s0 : EngSt) (hs : sc.hasScript = true)
    (hnav : hasNavigationPending (sc.onEnter (sc.onLoad s0)) = true) :
    (runMenu sc inputs s0).1.count Ev.onExit = 1 ∧
    Ev.onKey ∉ (runMenu sc inputs s0).1 ∧
    Ev.onInput ∉ (runMenu sc inputs s0).1 := by
  simp only [runMenu, hs, hnav, if_true]
  decide

/-- Concrete instantiation of `runMenu_onEnter_nav`: a script whose
`on_enter` issues `goto_menu("main_menu")`, run with a pending key that
must never be dispatched. -/
theorem runMenu_onEnter_nav_witness :
    (runMenu
      ⟨true, true, false, id, fun s => { s with nextMenu := "main_menu" },
        fun s _ => s, fun s _ => s, id⟩
      ["Q"] ⟨"", "", false, false, true⟩).1.count Ev.onExit = 1 ∧
    Ev.onKey ∉ (runMenu
      ⟨true, true, false, id, fun s => { s with nextMenu := "main_menu" },
        fun s _ => s, fun s _ => s, id⟩
      ["Q"] ⟨"", "", false, false, true⟩).1 ∧
    Ev.onInput ∉ (runMenu
      ⟨true, true, false, id, fun s => { s with nextMenu := "main_menu" },
        fun s _ => s, fun s _ => s, id⟩
      ["Q"] ⟨"", "", false, false, true⟩).1 :=
  runMenu_onEnter_nav _ ["Q"] _ rfl rfl

end Menu


namespace Telnet

/-- `TelnetConn.handleSubNegotiation` viewed on the input byte stream:
reads until IAC SE (with IAC IAC unescaped into the payload, and `IAC
<other>` treated as end of the sub-negotiation), failing on a payload
longer than 1024 bytes or on end of input. Returns the collected payload
and the remaining stream; payload processing (NAWS width/height, terminal
type, ANSI flag) only updates negotiated metadata and never feeds the
data stream. -/
def handleSubNegotiation : List Nat → List Nat → Option (List Nat × List Nat)
  | [], _ => none
  | b :: rest, buf =>
    if b = 255 then
      match rest with
      | [] => none
      | nxt :: r =>
        if nxt = 240 then some (buf, r)
        else if nxt = 255 then
          if buf.length + 1 > 1024 then none
          else handleSubNegotiation r (buf ++ [255])
        else some (buf, r)
    else
      if buf.length + 1 > 1024 then none
      else handleSubNegotiation rest (buf ++ [b])

theorem handleSubNegotiation_length (l buf : List Nat) :
    ∀ p r, handleSubNegotiation l buf = some (p, r) → r.length + 2 ≤ l.length := by
  induction l, buf using handleSubNegotiation.induct with
  | case1 buf =>
    intro p r h
    rw [handleSubNegotiation.eq_def] at h
    simp at h
  | case2 buf =>
    intro p r h
    rw [handleSubNegotiation.eq_def] at h
    simp at h
  | case3 buf r2 =>
    intro p r h
    rw [handleSubNegotiation.eq_def] at h
    simp at h
    obtain ⟨rfl, rfl⟩ := h
    simp
  | case4 buf r2 hlen hne =>
    intro p r h
    rw [handleSubNegotiation.eq_def] at h
    simp [hlen] at h
  | case5 buf r2 hlen hne ih =>
    intro p r h
    rw [handleSubNegotiation.eq_def] at h
    simp [hlen] at h
    have := ih p r h
    simp only [List.length_cons]
    omega
  | case6 buf nxt r2 h240 h255 =>
    intro p r h
    rw [handleSubNegotiation.eq_def] at h
    simp [h240, h255] at h
    obtain ⟨rfl, rfl⟩ := h
    simp
  | case7 b rest buf hb hlen =>
    intro p r h
    rw [handleSubNegotiation.eq_def] at h
    simp [hb, hlen] at h
  | case8 b rest buf hb hlen ih =>
    intro p r h
    rw [handleSubNegotiation.eq_def] at h
    simp only [if_neg hb, if_neg hlen] at h
    have := ih p r h
    simp only [List.length_cons]
    omega


/-- `TelnetConn.ReadByte` viewed on the input byte stream: the next
application-visible byte and the unconsumed remainder (`none` = read error
or end of stream). A plain byte is returned as is; `IAC IAC` yields a
literal 0xFF; `IAC WILL/WONT <opt>` and `IAC DO/DONT <opt>` are absorbed
(the replies of `handleWillWont`/`handleDoDont` go to the peer, not to the
reader); `IAC SB` runs the sub-negotiation reader; `IAC GA` and unknown
commands are skipped. -/
def telnetReadByte (l : List Nat) : Option (Nat × List Nat) :=
  match l with
  | [] => none
  | b :: rest =>
    if b ≠ 255 then some (b, rest)
    else
      match rest with
      | [] => none
      | cmd :: rest2 =>
        if cmd = 255 then some (255, rest2)
        else if cmd = 251 ∨ cmd = 252 then
          match rest2 with
          | [] => none
          | _opt :: rest3 => telnetReadByte rest3
        else if cmd = 253 ∨ cmd = 254 then
          match rest2 with
          | [] => none
          | _opt :: rest3 => telnetReadByte rest3
        else if cmd = 250 then
          match h : handleSubNegotiation rest2 [] with
          | none => none
          | some (_, r) => telnetReadByte r
        else telnetReadByte rest2
termination_by l.length
decreasing_by
  · simp only [List.length_cons]; omega
  · simp only [List.length_cons]; omega
  · have := handleSubNegotiation_length _ [] _ _ h
    simp only [List.length_cons]
    omega
  · simp only [List.length_cons]; omega

theorem telnetReadByte_length (l : List Nat) :
    ∀ b r, telnetReadByte l = some (b, r) → r.length < l.length := by
  induction l using telnetReadByte.induct with
  | case1 =>
    intro b r h
    rw [telnetReadByte.eq_def] at h
    simp at h
  | case2 nxt rest hb =>
    intro b r h
    rw [telnetReadByte.eq_def] at h
    simp [hb] at h
    obtain ⟨rfl, rfl⟩ := h
    simp
  | case3 nxt hb =>
    intro b r h
    rw [not_not] at hb
    subst hb
    rw [telnetReadByte.eq_def] at h
    simp at h
  | case4 nxt hb rest =>
    intro b r h
    rw [not_not] at hb
    subst hb
    rw [telnetReadByte.eq_def] at h
    simp at h
    obtain ⟨rfl, rfl⟩ := h
    simp only [List.length_cons]
    omega
  | case5 nxt hb cmd hne hcmd =>
    intro b r h
    rw [not_not] at hb
    subst hb
    rw [telnetReadByte.eq_def] at h
    simp [hne, hcmd] at h
  | case6 nxt hb cmd hne hcmd opt rest ih =>
    intro b r h
    rw [not_not] at hb
    subst hb
    rw [telnetReadByte.eq_def] at h
    simp [hne, hcmd] at h
    have := ih b r h
    simp only [List.length_cons]
    omega
  | case7 nxt hb cmd hne hcmd hdo =>
    intro b r h
    rw [not_not] at hb
    subst hb
    rw [telnetReadByte.eq_def] at h
    simp [hne, hcmd, hdo] at h
  | case8 nxt hb cmd hne hcmd hdo opt rest ih =>
    intro b r h
    rw [not_not] at hb
    subst hb
    rw [telnetReadByte.eq_def] at h
    simp [hne, hcmd, hdo] at h
    have := ih b r h
    simp only [List.length_cons]
    omega
  | case9 nxt hb rest hsub h255 hcmd hdo =>
    intro b r h
    rw [not_not] at hb
    subst hb
    rw [telnetReadByte.eq_def] at h
    simp at h
    split at h
    · simp at h
    · rename_i p2 r2 heq
      rw [hsub] at heq
      simp at heq
  | case10 nxt hb rest p rsub hsub h255 hcmd hdo ih =>
    intro b r h
    rw [not_not] at hb
    subst hb
    rw [telnetReadByte.eq_def] at h
    simp at h
    split at h
    · simp at h
    · rename_i p2 r2 heq
      rw [hsub] at heq
      obtain ⟨rfl, rfl⟩ : p = p2 ∧ rsub = r2 := by
        have := Option.some.inj heq
        exact ⟨congrArg Prod.fst this, congrArg Prod.snd this⟩
      have h2 := handleSubNegotiation_length rest [] p rsub hsub
      have := ih b r h
      simp only [List.length_cons]
      omega
  | case11 nxt hb cmd rest hne hcmd hdo hsb ih =>
    intro b r h
    rw [not_not] at hb
    subst hb
    rw [telnetReadByte.eq_def] at h
    simp [hne, hcmd, hdo, hsb] at h
    have := ih b r h
    simp only [List.length_cons]
    omega


/-- The whole byte sequence the application reader observes from a given
wire input: iterated `telnetReadByte` until an error or the end. -/
def telnetDelivered (l : List Nat) : List Nat :=
  match h : telnetReadByte l with
  | none => []
  | some (b, r) => b :: telnetDelivered r
termination_by l.length
decreasing_by exact telnetReadByte_length l b r h


/-- C6: an escaped IAC pair (0xFF 0xFF) reaches the application reader as
one literal 0xFF byte, and a WILL/WONT/DO/DONT negotiation triple (0xFF,
command, option) is wholly absorbed by the filter: the delivered stream
continues exactly as if the three bytes were absent, so none of them is
ever seen by the reader. -/
theorem readByte_iac_escape_and_negotiation (rest : List Nat) (cmd opt : Nat)
    (hcmd : cmd = 251 ∨ cmd = 252 ∨ cmd = 253 ∨ cmd = 254) :
    telnetReadByte (255 :: 255 :: rest) = some (255, rest) ∧
    telnetDelivered (255 :: 255 :: rest) = 255 :: telnetDelivered rest ∧
    telnetReadByte (255 :: cmd :: opt :: rest) = telnetReadByte rest ∧
    telnetDelivered (255 :: cmd :: opt :: rest) = telnetDelivered rest := by
  have hesc : telnetReadByte (255 :: 255 :: rest) = some (255, rest) := by
    rw [telnetReadByte.eq_def]
    simp
  have hneg : telnetReadByte (255 :: cmd :: opt :: rest) = telnetReadByte rest := by
    rw [telnetReadByte.eq_def]
    rcases hcmd with h | h | h | h <;> simp [h]
  refine ⟨hesc, ?_, hneg, ?_⟩
  · rw [telnetDelivered.eq_def]
    split
    · rename_i heq
      rw [hesc] at heq
      cases heq
    · rename_i b2 r2 heq
      rw [hesc] at heq
      obtain ⟨rfl, rfl⟩ : b2 = 255 ∧ r2 = rest := by
        have := Option.some.inj heq
        exact ⟨(congrArg Prod.fst this).symm, (congrArg Prod.snd this).symm⟩
      rfl
  · rw [telnetDelivered.eq_def]
    conv_rhs => rw [telnetDelivered.eq_def]
    rw [hneg]


/-- Concrete instantiation of `readByte_iac_escape_and_negotiation` with
the `IAC WILL ECHO` triple (255, 251, 1) and a following data byte. -/
theorem readByte_iac_escape_and_negotiation_witness :
    telnetReadByte (255 :: 255 :: [65]) = some (255, [65]) ∧
    telnetDelivered (255 :: 255 :: [65]) = 255 :: telnetDelivered [65] ∧
    telnetReadByte (255 :: 251 :: 1 :: [65]) = telnetReadByte [65] ∧
    telnetDelivered (255 :: 251 :: 1 :: [65]) = telnetDelivered [65] :=
  readByte_iac_escape_and_negotiation [65] 251 1 (by decide)

end Telnet

namespace Ansi

/-- A placeholder found in a display file (`ansi.Field`): identifier bytes
(a Go string is a byte sequence), 1-based screen coordinates where the
placeholder begins, and the declared width. -/
structure Field where
  id     : List Nat
  row    : Int
  col    : Int
  maxLen : Int
  deriving DecidableEq, Repr

/-- Decimal digit run accumulator for `strconv.Atoi`. -/
def digitsAux : List Nat → Nat → Option Nat
  | [], acc => some acc
  | c :: r, acc =>
    if 48 ≤ c ∧ c ≤ 57 then digitsAux r (acc * 10 + (c - 48)) else none

/-- A non-empty all-digit run, or `none`. -/
def digitsVal : List Nat → Option Nat
  | [] => none
  | l => digitsAux l 0

/-- `strconv.Atoi` on the byte level: optional sign, then digits. -/
def atoiB : List Nat → Option Int
  | 43 :: rest => (digitsVal rest).map Int.ofNat
  | 45 :: rest => (digitsVal rest).map (fun n => -(n : Int))
  | s => (digitsVal s).map Int.ofNat

/-- `strings.Split(params, ";")` on bytes (';' = 59). -/
def splitSemi : List Nat → List (List Nat)
  | [] => [[]]
  | 59 :: r => [] :: splitSemi r
  | c :: r =>
    match splitSemi r with
    | s :: rest => (c :: s) :: rest
    | [] => [[c]]

/-- The per-segment loop of `applyCSI`'s `parseNums`: an empty segment
contributes 0, a parse failure aborts the whole list (Go `return nil`). -/
def collectNums : List (List Nat) → Option (List Int)
  | [] => some []
  | s :: rest =>
    if s = [] then (collectNums rest).map (0 :: ·)
    else
      match atoiB s with
      | none => none
      | some n => (collectNums rest).map (n :: ·)

/-- `parseNums` inside `applyCSI`: empty parameter string and any parse
error both yield the empty list (Go `nil`). -/
def parseNums (params : List Nat) : List Int :=
  if params = [] then []
  else (collectNums (splitSemi params)).getD []

/-- The clamp at the end of `applyCSI` (skipped by the early `return` for
`J`/`K`/`m`): col capped at `width`, then row and col raised to 1. -/
def csiClamp (width row col : Int) : Int × Int :=
  let col1 := if col > width then width else col
  let row1 := if row < 1 then 1 else row
  let col2 := if col1 < 1 then 1 else col1
  (row1, col2)

/-- `applyCSI`: cursor-position `H`/`f`, cursor up/down/forward/back
`A`/`B`/`C`/`D` move the cursor; `J`/`K`/`m` return early without the
final clamp; unknown finals fall through to the clamp unchanged. A missing
parameter reads as 0 via `getD`, matching Go's `len(nums) >= k &&
nums[k-1] > 0` guards. -/
def applyCSI (row col width : Int) (params : List Nat) (finalB : Nat) :
    Int × Int :=
  let nums := parseNums params
  if finalB = 72 ∨ finalB = 102 then
    let r := if nums.getD 0 0 > 0 then nums.getD 0 0 else 1
    let c := if nums.getD 1 0 > 0 then nums.getD 1 0 else 1
    csiClamp width r c
  else if finalB = 65 then
    let n := if nums.getD 0 0 > 0 then nums.getD 0 0 else 1
    let row2 := row - n
    csiClamp width (if row2 < 1 then 1 else row2) col
  else if finalB = 66 then
    let n := if nums.getD 0 0 > 0 then nums.getD 0 0 else 1
    csiClamp width (row + n) col
  else if finalB = 67 then
    let n := if nums.getD 0 0 > 0 then nums.getD 0 0 else 1
    let col2 := col + n
    csiClamp width row (if col2 < 1 then 1 else col2)
  else if finalB = 68 then
    let n := if nums.getD 0 0 > 0 then nums.getD 0 0 else 1
    let col2 := col - n
    csiClamp width row (if col2 < 1 then 1 else col2)
  else if finalB = 74 ∨ finalB = 75 ∨ finalB = 109 then (row, col)
  else csiClamp width row col

/-- The `advancePrint` closure of `IndexFields`: per printed byte, a
cursor past the right edge first wraps to the next row before the cursor
advances. -/
def advancePrint (width : Int) : Nat → Int × Int → Int × Int
  | 0, rc => rc
  | n + 1, (row, col) =>
    if col > width then advancePrint width n (row + 1, 2)
    else advancePrint width n (row, col + 1)

/-- `findPlaceholderEnd`, list-shaped: splits `payload ++ '}}' ++ rest`
off the bytes following `'{{'`; an ESC byte or a missing `'}}'` aborts. -/
def findPlaceholderEnd : List Nat → Option (List Nat × List Nat)
  | 125 :: 125 :: r => some ([], r)
  | 27 :: _ => none
  | b :: r => (findPlaceholderEnd r).map (fun pr => (b :: pr.1, pr.2))
  | [] => none

/-- ASCII whitespace for `strings.TrimSpace` on byte payloads. -/
def isSpaceByte (c : Nat) : Bool :=
  c = 32 ∨ c = 9 ∨ c = 10 ∨ c = 13 ∨ c = 11 ∨ c = 12

/-- `strings.TrimSpace` on bytes. -/
def trimBytes (l : List Nat) : List Nat :=
  ((l.dropWhile isSpaceByte).reverse.dropWhile isSpaceByte).reverse

/-- `strings.SplitN(payload, ",", 2)` on bytes (',' = 44): the part before
the first comma, and the rest when a comma exists. -/
def splitComma2 : List Nat → List Nat × Option (List Nat)
  | [] => ([], none)
  | 44 :: r => ([], some r)
  | c :: r =>
    let pr := splitComma2 r
    (c :: pr.1, pr.2)

/-- `parseFieldPayload`: trimmed identifier before an optional comma, and
a positive parsed width after it (otherwise 0). An empty identifier comes
back as `[]` (Go `""`). -/
def parseFieldPayload (payload : List Nat) : List Nat × Int :=
  let p := trimBytes payload
  if p = [] then ([], 0)
  else
    let pr := splitComma2 p
    let id := trimBytes pr.1
    if id = [] then ([], 0)
    else
      match pr.2 with
      | none => (id, 0)
      | some p1 =>
        match atoiB (trimBytes p1) with
        | some n => if n > 0 then (id, n) else (id, 0)
        | none => (id, 0)

/-- The CSI scanner inside `IndexFields`: bytes before the final byte
(0x40–0x7e) are parameters; reaching the end of input without a final
aborts the scan. -/
def takeCSI : List Nat → List Nat × Option Nat × List Nat
  | [] => ([], none, [])
  | c :: r =>
    if 64 ≤ c ∧ c ≤ 126 then ([], some c, r)
    else
      let pr := takeCSI r
      (c :: pr.1, pr.2.1, pr.2.2)

/-- One iteration of the `IndexFields` scan loop at byte `b`: either the
scan stops (ESC reaching the end of input, or a CSI without a final byte)
or it continues with the rest of the input, the new cursor, and at most
one freshly indexed field (recorded at the cursor position where the
placeholder begins). -/
inductive StepRes where
  | stop : StepRes
  | cont (rest : List Nat) (row col : Int) (newField : Option Field) : StepRes

def scanStep (width : Int) (b : Nat) (rest : List Nat) (row col : Int) :
    StepRes :=
  if b = 27 then
    match rest with
    | [] => .stop
    | 91 :: r2 =>
      match takeCSI r2 with
      | (params, some fin, r3) =>
        let rc := applyCSI row col width params fin
        .cont r3 rc.1 rc.2 none
      | (_, none, _) => .stop
    | _ :: r2 => .cont r2 row col none
  else if b = 13 then .cont rest row 1 none
  else if b = 10 then .cont rest (row + 1) 1 none
  else if b = 8 then .cont rest row (if col > 1 then col - 1 else col) none
  else if b = 123 then
    match rest with
    | 123 :: r2 =>
      match findPlaceholderEnd r2 with
      | some (payload, r3) =>
        let idLen := parseFieldPayload payload
        let rc := advancePrint width (payload.length + 4) (row, col)
        .cont r3 rc.1 rc.2
          (if idLen.1 = [] then none
           else some ⟨idLen.1, row, col, idLen.2⟩)
      | none =>
        let rc := advancePrint width 1 (row, col)
        .cont rest rc.1 rc.2 none
    | _ =>
      let rc := advancePrint width 1 (row, col)
      .cont rest rc.1 rc.2 none
  else
    let rc := if 32 ≤ b ∧ b ≠ 127 then advancePrint width 1 (row, col)
              else (row, col)
    .cont rest rc.1 rc.2 none

/-- The `IndexFields` scan loop: first-wins per identifier (a later
duplicate is ignored). The fuel only bounds the iteration count; every
iteration consumes at least one input byte, so `data.length` steps never
run out, and running out merely returns the fields found so far. -/
def scanFields (width : Int) : Nat → List Nat → Int → Int → List Field → List Field
  | 0, _, _, _, fields => fields
  | _ + 1, [], _, _, fields => fields
  | fuel + 1, b :: rest, row, col, fields =>
    match scanStep width b rest row col with
    | .stop => fields
    | .cont r2 row2 col2 newF =>
      let fields2 :=
        match newF with
        | some f => if fields.any (fun g => g.id == f.id) then fields
                    else fields ++ [f]
        | none => fields
      scanFields width fuel r2 row2 col2 fields2

/-- `IndexFields`: empty content yields no fields; otherwise the cursor
simulation starts at (1,1) with the effective width (80 when the given
width is not positive). -/
def indexFields (data : List Nat) (termWidth : Int) : List Field :=
  if data = [] then []
  else
    scanFields (if termWidth ≤ 0 then 80 else termWidth)
      data.length data 1 1 []

theorem csiClamp_bounds (width row col : Int) (hw : 1 ≤ width) :
    1 ≤ (csiClamp width row col).1 ∧ 1 ≤ (csiClamp width row col).2 ∧
      (csiClamp width row col).2 ≤ width + 1 := by
  simp only [csiClamp]
  refine ⟨?_, ?_, ?_⟩ <;> (split <;> try split) <;> omega

theorem applyCSI_bounds (row col width : Int) (params : List Nat)
    (finalB : Nat) (hw : 1 ≤ width) (h1 : 1 ≤ row) (h2 : 1 ≤ col)
    (h3 : col ≤ width + 1) :
    1 ≤ (applyCSI row col width params finalB).1 ∧
    1 ≤ (applyCSI row col width params finalB).2 ∧
    (applyCSI row col width params finalB).2 ≤ width + 1 := by
  simp only [applyCSI]
  split
  · exact csiClamp_bounds _ _ _ hw
  all_goals split
  · exact csiClamp_bounds _ _ _ hw
  all_goals split
  · exact csiClamp_bounds _ _ _ hw
  all_goals split
  · exact csiClamp_bounds _ _ _ hw
  all_goals split
  · exact csiClamp_bounds _ _ _ hw
  all_goals split
  · exact ⟨h1, h2, h3⟩
  · exact csiClamp_bounds _ _ _ hw

theorem advancePrint_bounds (width : Int) (hw : 1 ≤ width) :
    ∀ (n : Nat) (row col : Int), 1 ≤ row → 1 ≤ col → col ≤ width + 1 →
      1 ≤ (advancePrint width n (row, col)).1 ∧
      1 ≤ (advancePrint width n (row, col)).2 ∧
      (advancePrint width n (row, col)).2 ≤ width + 1 := by
  intro n
  induction n with
  | zero => intro row col h1 h2 h3; exact ⟨h1, h2, h3⟩
  | succ m ih =>
    intro row col h1 h2 h3
    rw [advancePrint]
    split
    · exact ih (row + 1) 2 (by omega) (by omega) (by omega)
    · exact ih row (col + 1) h1 (by omega) (by omega)

theorem scanStep_bounds (width : Int) (hw : 1 ≤ width) (b : Nat)
    (rest : List Nat) (row col : Int) (h1 : 1 ≤ row) (h2 : 1 ≤ col)
    (h3 : col ≤ width + 1) :
    ∀ r2 row2 col2 newF,
      scanStep width b rest row col = .cont r2 row2 col2 newF →
      (1 ≤ row2 ∧ 1 ≤ col2 ∧ col2 ≤ width + 1) ∧
      (∀ f, newF = some f → f.row = row ∧ f.col = col) := by
  intro r2 row2 col2 newF h
  rw [scanStep.eq_def] at h
  split at h
  · -- ESC
    split at h
    · cases h
    · split at h
      · rename_i params fin r3 heq
        simp only [StepRes.cont.injEq] at h
        obtain ⟨rfl, hr, hc, rfl⟩ := h
        have hb := applyCSI_bounds row col width params fin hw h1 h2 h3
        subst hr; subst hc
        exact ⟨hb, by intro f hf; cases hf⟩
      · cases h
    · simp only [StepRes.cont.injEq] at h
      obtain ⟨rfl, rfl, rfl, rfl⟩ := h
      exact ⟨⟨h1, h2, h3⟩, by intro f hf; cases hf⟩
  all_goals split at h
  · -- CR
    simp only [StepRes.cont.injEq] at h
    obtain ⟨rfl, rfl, rfl, rfl⟩ := h
    exact ⟨⟨h1, by omega, by omega⟩, by intro f hf; cases hf⟩
  all_goals split at h
  · -- LF
    simp only [StepRes.cont.injEq] at h
    obtain ⟨rfl, rfl, rfl, rfl⟩ := h
    exact ⟨⟨by omega, by omega, by omega⟩, by intro f hf; cases hf⟩
  all_goals split at h
  · -- BS
    simp only [StepRes.cont.injEq] at h
    obtain ⟨rfl, rfl, rfl, rfl⟩ := h
    refine ⟨⟨h1, ?_, ?_⟩, by intro f hf; cases hf⟩ <;> (split <;> omega)
  all_goals split at h
  · -- '{'
    split at h
    · split at h
      · rename_i payload r3 heq
        simp only [StepRes.cont.injEq] at h
        obtain ⟨rfl, hr, hc, rfl⟩ := h
        have hb := advancePrint_bounds width hw (payload.length + 4) row col h1 h2 h3
        subst hr; subst hc
        refine ⟨hb, ?_⟩
        intro f hf
        split at hf
        · cases hf
        · cases hf
          exact ⟨rfl, rfl⟩
      · simp only [StepRes.cont.injEq] at h
        obtain ⟨rfl, hr, hc, rfl⟩ := h
        have hb := advancePrint_bounds width hw 1 row col h1 h2 h3
        subst hr; subst hc
        exact ⟨hb, by intro f hf; cases hf⟩
    · simp only [StepRes.cont.injEq] at h
      obtain ⟨rfl, hr, hc, rfl⟩ := h
      have hb := advancePrint_bounds width hw 1 row col h1 h2 h3
      subst hr; subst hc
      exact ⟨hb, by intro f hf; cases hf⟩
  · -- printable or control
    simp only [StepRes.cont.injEq] at h
    obtain ⟨rfl, hr, hc, rfl⟩ := h
    refine ⟨?_, by intro f hf; cases hf⟩
    subst hr; subst hc
    split
    · exact advancePrint_bounds width hw 1 row col h1 h2 h3
    · exact ⟨h1, h2, h3⟩

theorem scanFields_bounds (width : Int) (hw : 1 ≤ width) :
    ∀ (fuel : Nat) (data : List Nat) (row col : Int) (fields : List Field),
      1 ≤ row → 1 ≤ col → col ≤ width + 1 →
      (∀ f ∈ fields, 1 ≤ f.row ∧ 1 ≤ f.col ∧ f.col ≤ width + 1) →
      ∀ f ∈ scanFields width fuel data row col fields,
        1 ≤ f.row ∧ 1 ≤ f.col ∧ f.col ≤ width + 1 := by
  intro fuel
  induction fuel with
  | zero =>
    intro data row col fields h1 h2 h3 hf f hmem
    exact hf f hmem
  | succ n ih =>
    intro data row col fields h1 h2 h3 hf f hmem
    match data with
    | [] => exact hf f hmem
    | b :: rest =>
      rw [scanFields] at hmem
      split at hmem
      · exact hf f hmem
      · rename_i r2 row2 col2 newF hstep
        obtain ⟨⟨hb1, hb2, hb3⟩, hnew⟩ :=
          scanStep_bounds width hw b rest row col h1 h2 h3 r2 row2 col2 newF hstep
        refine ih r2 row2 col2 _ hb1 hb2 hb3 ?_ f hmem
        intro g hg
        match hnf : newF with
        | none =>
          subst hnf
          exact hf g hg
        | some f2 =>
          subst hnf
          simp only at hg
          split at hg
          · exact hf g hg
          · rcases List.mem_append.mp hg with hgl | hgr
            · exact hf g hgl
            · have : g = f2 := by simpa using hgr
              subst this
              obtain ⟨hr, hc⟩ := hnew g rfl
              rw [hr, hc]
              exact ⟨h1, h2, h3⟩

/-- C5 (amended): every field returned by `IndexFields(F, W)` has row ≥ 1
and column at most `W' + 1`, where `W'` is the effective width (80 when
`W ≤ 0`). The column can actually reach `W' + 1` — when a placeholder
begins while the cursor sits in the pending-wrap position after a full
printed line — so the claimed bound `column ≤ W'` does not hold, but this
one-column-wider bound does. -/
theorem indexFields_bounds (data : List Nat) (termWidth : Int) :
    ∀ f ∈ indexFields data termWidth,
      1 ≤ f.row ∧ 1 ≤ f.col ∧
        f.col ≤ (if termWidth ≤ 0 then 80 else termWidth) + 1 := by
  intro f hmem
  rw [indexFields] at hmem
  split at hmem
  · cases hmem
  · have hw : (1 : Int) ≤ (if termWidth ≤ 0 then 80 else termWidth) := by
      split <;> omega
    exact scanFields_bounds _ hw data.length data 1 1 [] (by omega) (by omega)
      (by omega) (by intro g hg; cases hg) f hmem

/-- Concrete instantiation of `indexFields_bounds` at width 1 on the bytes
`A{{X}}`: the single indexed field `X` sits at row 1, column 2 = width + 1. -/
theorem indexFields_bounds_witness :
    (⟨[88], 1, 2, 0⟩ : Field) ∈ indexFields [65, 123, 123, 88, 125, 125] 1 ∧
    (1 ≤ (1 : Int) ∧ 1 ≤ (2 : Int) ∧
      (2 : Int) ≤ (if (1 : Int) ≤ 0 then 80 else 1) + 1) := by
  constructor
  · decide
  · exact indexFields_bounds [65, 123, 123, 88, 125, 125] 1 ⟨[88], 1, 2, 0⟩
      (by decide)

/-- C5 (counterexample to the claim as stated): with effective width 1 and
content `A{{X}}`, the field `X` is indexed at column 2 > width — the
cursor-motion simulation leaves the cursor at width + 1 after a full
printed line, and `IndexFields` records the placeholder there without
clamping. -/
theorem indexFields_col_exceeds_width :
    indexFields [65, 123, 123, 88, 125, 125] 1 = [⟨[88], 1, 2, 0⟩] ∧
    ¬ (∀ f ∈ indexFields [65, 123, 123, 88, 125, 125] 1, f.col ≤ 1) := by
  constructor
  · decide
  · decide

end Ansi
